import Mathlib

/-!
Verification of the dependency license-obligation resolver implemented in
`docs/scripts/licenses.py`.

The script is embedded shallowly:
* Python strings are Lean `String`s; the script's string operations
  (`str.split` on a separator, `str.strip`, `str.lower`, substring tests and
  the `\d{4}` regex search) are implemented as structurally recursive
  functions over the underlying character lists so that they evaluate inside
  the kernel.
* The `cargo metadata` package graph is a `List Package`; a dependency edge
  carries the target name, its relationship kind and its optional platform
  conditional, exactly the three fields the script inspects.
* The Python `dict` returned for a dependency is a `Dependency` record whose
  `license` field distinguishes a missing key (`LicenseField.absent`), a JSON
  `null` value (`LicenseField.null`) and a string value (`LicenseField.str`).
* `sys.exit(1)` / uncaught exceptions are modelled with `Except`: a run that
  aborts is an `Except.error`, and the final notices document is only
  produced as the payload of `Except.ok`.
* The file system scanned by the notice extractor is a pure oracle
  `String → List FsEntry` mapping a dependency's manifest path to the
  directory listing of the crate directory containing it.
-/

/-! ## String primitives used by the script -/

/-- Lower-case a character list (Python `str.lower` on the ASCII data the
script handles). -/
def lowerChars (l : List Char) : List Char := l.map Char.toLower

/-- Lower-case a string. -/
def lowerString (s : String) : String := String.mk (lowerChars s.data)

/-- Strip leading and trailing whitespace (Python `str.strip`). -/
def trimChars (l : List Char) : List Char :=
  ((l.dropWhile Char.isWhitespace).reverse.dropWhile Char.isWhitespace).reverse

/-- Strip a string. -/
def trimString (s : String) : String := String.mk (trimChars s.data)

/-- Split a character list on each non-overlapping occurrence of the literal
separator `OR`, scanning left to right: this is Python's
`expression.split('OR')`. The first argument accumulates the current piece
in reverse. -/
def splitOnORAux : List Char → List Char → List (List Char)
  | acc, 'O' :: 'R' :: rest => acc.reverse :: splitOnORAux [] rest
  | acc, c :: rest => splitOnORAux (c :: acc) rest
  | acc, [] => [acc.reverse]

/-- Split a character list on the literal separator `AND` (Python
`license.split('AND')`). -/
def splitOnANDAux : List Char → List Char → List (List Char)
  | acc, 'A' :: 'N' :: 'D' :: rest => acc.reverse :: splitOnANDAux [] rest
  | acc, c :: rest => splitOnANDAux (c :: acc) rest
  | acc, [] => [acc.reverse]

/-- String-level split on `OR`. -/
def splitOR (s : String) : List String := (splitOnORAux [] s.data).map String.mk

/-- String-level split on `AND`. -/
def splitAND (s : String) : List String := (splitOnANDAux [] s.data).map String.mk

/-- Substring test on character lists (Python's `needle in haystack`),
testing the needle as a prefix of every suffix of the haystack. -/
def containsSub (needle : List Char) : List Char → Bool
  | [] => needle.isPrefixOf ([] : List Char)
  | c :: cs => needle.isPrefixOf (c :: cs) || containsSub needle cs

/-- Substring test on strings. -/
def containsStr (needle s : String) : Bool := containsSub needle.data s.data

/-- Search for four consecutive decimal digits, the effect of
`re.search(re.compile(r'\d\x7b4\x7d'), line)` on the lines the script scans. -/
def hasYearChars : List Char → Bool
  | a :: b :: c :: d :: rest =>
    (a.isDigit && b.isDigit && c.isDigit && d.isDigit) || hasYearChars (b :: c :: d :: rest)
  | _ => false

/-- Year search at string level. -/
def hasYearMatch (s : String) : Bool := hasYearChars s.data

/-- Join a list of strings with a separator (Python `sep.join(parts)`). -/
def joinSep (sep : String) : List String → String
  | [] => ""
  | [x] => x
  | x :: xs => x ++ sep ++ joinSep sep xs

/-! ## Data model -/

/-- One dependency edge of a package in the `cargo metadata` graph: the
target package name, the relationship kind (`normal`, `dev` or `build`) and
the optional platform conditional of the edge. -/
structure DepEdge where
  name : String
  kind : String
  target : Option String
deriving DecidableEq

/-- A package of the metadata graph, with the fields the script reads. The
`license` field is `none` when the package declares no license (JSON
`null`). -/
structure Package where
  name : String
  version : String
  license : Option String
  manifest_path : String
  dependencies : List DepEdge
deriving DecidableEq

/-- How the `license` key of a dependency record can look: absent from the
record, present with a `null` value, or present with a string value. -/
inductive LicenseField where
  | absent
  | null
  | str (value : String)
deriving DecidableEq

/-- A resolved dependency record as built by `get_package_dependencies`. -/
structure Dependency where
  name : String
  version : String
  license : LicenseField
  manifest_path : String
deriving DecidableEq

/-- Abnormal terminations of `parse_licenses`: `missingLicense` is the
explicit `exit(1)` on a record without a `license` key, `splitOnNone` is the
uncaught `AttributeError` raised by `None.split('OR')` when the key is
present but `null`. -/
inductive ParseError where
  | missingLicense
  | splitOnNone
deriving DecidableEq

/-- Fatal conditions of the orchestrator loop. -/
inductive MainError where
  | parse (e : ParseError)
  | noNotices (name : String) (version : String)
deriving DecidableEq

/-- A directory entry of a crate directory: a regular file with its lines,
or a sub-directory with its own entries. -/
inductive FsEntry where
  | file (name : String) (lines : List String)
  | dir (name : String) (entries : List FsEntry)

/-! ## Fixed tables of the script -/

/-- Licenses that require no redistribution notice. -/
def SKIPPABLE_NOTICE_LICENSES : List String :=
  ["CC0-1.0", "Unlicense", "Zlib", "MPL-2.0"]

/-- Licenses whose text file is never downloaded. -/
def SKIPPABLE_LICENSE_FILES : List String :=
  SKIPPABLE_NOTICE_LICENSES ++ ["GPL-3.0", "GPL-3.0-only", "GPL-3.0-or-later"]

/-- The project's own crates, never given a notices section. -/
def SKIPPABLE_CRATES : List String :=
  ["libloot", "libloot-ffi-errors"]

/-- Dependencies manually verified to carry no notices. -/
def NO_NOTICES_WHITELIST : List (String × String) :=
  [("allocator-api2", "0.2.21"),
   ("cxx", "1.0.161"),
   ("cxxbridge-macro", "1.0.161"),
   ("delegate", "0.13.4"),
   ("link-cplusplus", "1.0.10"),
   ("once_cell", "1.21.3"),
   ("option-ext", "0.2.0"),
   ("pelite-macros", "0.1.1"),
   ("pest", "2.8.0"),
   ("proc-macro2", "1.0.101"),
   ("quote", "1.0.40"),
   ("rustc-hash", "2.1.1"),
   ("rustversion", "1.0.20"),
   ("serde", "1.0.219"),
   ("serde_derive", "1.0.219"),
   ("syn", "2.0.106"),
   ("thiserror", "2.0.12"),
   ("thiserror-impl", "2.0.12")]

/-- The single hard-excluded platform conditional. -/
def REDOX_TARGET : String := "cfg(target_os = \"redox\")"

/-! ## License expression simplification (`parse_licenses`) -/

/-- The fixed normalization table applied to the raw license field before
splitting: one non-SPDX slash expression rewritten to its `OR` form, and two
parenthesized expressions with one alternative pre-selected. -/
def normalizeLicense (s : String) : String :=
  if s = "MIT/Apache-2.0" then "MIT OR Apache-2.0"
  else if s = "(Apache-2.0 OR MIT) AND BSD-3-Clause" then "MIT AND BSD-3-Clause"
  else if s = "(MIT OR Apache-2.0) AND Unicode-3.0" then "MIT AND Unicode-3.0"
  else s

/-- Strip every element of a list of strings (`map(str.strip, ...)`). -/
def stripAll (l : List String) : List String := l.map trimString

/-- The body of `parse_licenses` on a present string license field:
normalize, split on `OR`, return the first all-skippable `AND` branch if
any, else `["MIT"]` if `MIT` is an `OR` branch, else the `AND` split of the
first `OR` branch. -/
def simplifyLicenses (raw : String) : List String :=
  let licenses_any := stripAll (splitOR (normalizeLicense raw))
  match licenses_any.find?
      (fun license =>
        (stripAll (splitAND license)).all
          (fun l => SKIPPABLE_NOTICE_LICENSES.contains l)) with
  | some license => stripAll (splitAND license)
  | none =>
    if licenses_any.contains "MIT" then ["MIT"]
    else stripAll (splitAND (licenses_any.headD ""))

/-- The `parse_licenses` function of the script, on a dependency record. -/
def parse_licenses (dependency : Dependency) : Except ParseError (List String) :=
  match dependency.license with
  | .absent => .error .missingLicense
  | .null => .error .splitOnNone
  | .str s => .ok (simplifyLicenses s)

/-! ## Dependency graph traversal -/

/-- An edge is skipped when its kind is `dev` or `build` or its platform
conditional is the hard-excluded Redox conditional. -/
def isExcludedEdge (e : DepEdge) : Bool :=
  (e.kind == "dev" || e.kind == "build") || e.target == some REDOX_TARGET

/-- Number of package names not yet visited; the primary termination
measure of the traversal. -/
def unvisitedCount (packages : List Package) (visited : List String) : Nat :=
  (((packages.map Package.name).toFinset) \ visited.toFinset).card

/-- Weight of a traversal worklist: total number of pending edges plus one
per frame. -/
def stackWeight (stack : List (List DepEdge)) : Nat :=
  (stack.map (fun f => f.length + 1)).sum

/-- The recursion of `recurse_dependencies`, phrased with an explicit
worklist of edge frames so that each branch makes a single tail call. A
frame holds the not-yet-processed dependency edges of one package; when an
edge is accepted its target name is added to the visited set and one frame
per package of that name is pushed on top of the worklist, which is exactly
the order in which the Python recursion proceeds. -/
def dfsLoop (packages : List Package) (stack : List (List DepEdge)) (visited : List String) :
    List String :=
  match stack with
  | [] => visited
  | [] :: rest => dfsLoop packages rest visited
  | (e :: es) :: rest =>
    if visited.contains e.name || isExcludedEdge e then
      dfsLoop packages (es :: rest) visited
    else
      dfsLoop packages
        (((packages.filter (fun p => p.name == e.name)).map Package.dependencies) ++ es :: rest)
        (e.name :: visited)
termination_by (unvisitedCount packages visited, stackWeight stack)
decreasing_by
  · apply Prod.Lex.right
    simp [stackWeight]
  · apply Prod.Lex.right
    simp [stackWeight]
  · rename_i hcond
    by_cases hmem : e.name ∈ packages.map Package.name
    · apply Prod.Lex.left
      apply Finset.card_lt_card
      constructor
      · apply Finset.sdiff_subset_sdiff (Finset.Subset.refl _)
        intro x hx
        simp only [List.toFinset_cons, Finset.mem_insert]
        exact Or.inr hx
      · intro hsub
        have hnv : e.name ∉ visited := by
          intro hv
          simp only [Bool.or_eq_true] at hcond
          exact hcond (Or.inl (List.elem_iff.mpr hv))
        have hn : e.name ∈ (packages.map Package.name).toFinset \ visited.toFinset := by
          simp [hmem, hnv]
        have := hsub hn
        simp at this
    · have heq : unvisitedCount packages (e.name :: visited) =
          unvisitedCount packages visited := by
        unfold unvisitedCount
        congr 1
        ext x
        simp only [List.toFinset_cons, Finset.mem_sdiff, Finset.mem_insert, List.mem_toFinset]
        constructor
        · rintro ⟨h1, h2⟩
          exact ⟨h1, fun hx => h2 (Or.inr hx)⟩
        · rintro ⟨h1, h2⟩
          refine ⟨h1, ?_⟩
          rintro (rfl | hx)
          · exact hmem (by simpa using h1)
          · exact h2 hx
      rw [heq]
      apply Prod.Lex.right
      have hfilter : packages.filter (fun p => p.name == e.name) = [] := by
        rw [List.filter_eq_nil_iff]
        intro p hp
        simp only [beq_iff_eq]
        intro hpe
        exact hmem (List.mem_map.mpr ⟨p, hp, hpe⟩)
      simp [hfilter, stackWeight]

/-- The `recurse_dependencies` function: walk the dependency edges of
`current`, accumulating visited dependency names. -/
def recurse_dependencies (packages : List Package) (current : Package)
    (visited : List String) : List String :=
  dfsLoop packages [current.dependencies] visited

/-- The visited-name set built by the main loop of
`get_package_dependencies`: every package named `package_name` is traversed,
sharing one visited set. -/
def resolveNames (packages : List Package) (package_name : String) : List String :=
  packages.foldl
    (fun vis p => if p.name == package_name then recurse_dependencies packages p vis else vis)
    []

/-- Turn the metadata `license` value into the license field of the record
the script builds: the key is always present. -/
def licenseFieldOfMeta : Option String → LicenseField
  | none => .null
  | some s => .str s

/-- The `get_package_dependencies` function: traverse from every package
named `package_name`, then keep each package whose name was visited,
projecting the four fields the script copies. -/
def get_package_dependencies (packages : List Package) (package_name : String) :
    List Dependency :=
  let dependency_names := resolveNames packages package_name
  (packages.filter (fun p => dependency_names.contains p.name)).map
    (fun p =>
      { name := p.name
        version := p.version
        license := licenseFieldOfMeta p.license
        manifest_path := p.manifest_path })

/-! ## Notice extraction -/

/-- Classification of one line of a license file, from
`read_notices_from_file`: the lower-cased line must contain `copyright`,
and the lower-cased line must contain `(c)`, or the original line the
copyright sign, or the line four consecutive digits. -/
def noticeLine (line : String) : Bool :=
  containsStr "copyright" (lowerString line) &&
    (containsStr "(c)" (lowerString line) || containsStr "©" line || hasYearMatch line)

/-- The `read_notices_from_file` function on the lines of one file: keep the
classified lines, stripped. -/
def read_notices_from_file (lines : List String) : List String :=
  (lines.filter noticeLine).map trimString

/-- File name filter of the extractor: the lower-cased name contains
`license` or `copying`. -/
def matchesLicenseName (filename : String) : Bool :=
  containsStr "license" (lowerString filename) || containsStr "copying" (lowerString filename)

/-- Scan of a matched sub-directory: read every regular file directly inside
it, ignoring deeper directories. -/
def scanDirFiles (entries : List FsEntry) : List String :=
  entries.foldl
    (fun acc e =>
      match e with
      | .file _ lines => acc ++ read_notices_from_file lines
      | .dir _ _ => acc)
    []

/-- The notice lines collected from a crate directory, in scan order and
with duplicates. -/
def collectNotices (entries : List FsEntry) : List String :=
  entries.foldl
    (fun acc e =>
      match e with
      | .file nm lines =>
        if matchesLicenseName nm then acc ++ read_notices_from_file lines else acc
      | .dir nm sub =>
        if matchesLicenseName nm then acc ++ scanDirFiles sub else acc)
    []

/-- The `read_notices` function: three hardcoded overrides, otherwise the
collected lines deduplicated as a set and sorted (`list(set(notices))`
followed by `notices.sort()`). -/
def read_notices (d : Dependency) (entries : List FsEntry) : List String :=
  if d.name = "hashlink" then ["Copyright (c) 2015 The Rust Project Developers"]
  else if d.name = "libloadorder" then ["Copyright (C) 2017 Oliver Hamlet"]
  else if d.name = "esplugin" then ["Copyright (C) 2017 Oliver Hamlet"]
  else List.insertionSort (fun a b => a ≤ b) (collectNotices entries).dedup

/-! ## License text download set (`download_licenses`) -/

/-- The run-wide set of license identifiers collected by
`download_licenses` before its adjustments; a failing `parse_licenses`
aborts the run. -/
def collectUniqueLicenses (deps : List Dependency) : Except ParseError (Finset String) :=
  deps.foldlM
    (fun acc d => do
      let licenses ← parse_licenses d
      pure (acc ∪ licenses.toFinset))
    ∅

/-- The GPL consolidation of `download_licenses`: when the `or-later`
variant is present, the other two variants are removed from the set. -/
def consolidateGPL (u : Finset String) : Finset String :=
  if "GPL-3.0-or-later" ∈ u then
    let u1 := if "GPL-3.0" ∈ u then u.erase "GPL-3.0" else u
    if "GPL-3.0-only" ∈ u1 then u1.erase "GPL-3.0-only" else u1
  else u

/-- The set of license identifiers whose canonical text `download_licenses`
fetches: the consolidated set minus the fixed skip-list. -/
def licensesToFetch (deps : List Dependency) : Except ParseError (Finset String) := do
  let u ← collectUniqueLicenses deps
  pure ((consolidateGPL u).filter (fun l => l ∉ SKIPPABLE_LICENSE_FILES))

/-! ## Orchestrator -/

/-- Registry URL of a dependency (`get_url`). -/
def get_url (d : Dependency) : String :=
  "https://crates.io/crates/" ++ d.name ++ "/" ++ d.version

/-- The formatted section emitted for one dependency with its notices. -/
def sectionRst (d : Dependency) (notices : List String) : String :=
  let link_rst := "`" ++ d.name ++ " v" ++ d.version ++ " <" ++ get_url d ++ ">`_"
  let underline_rst := String.mk (List.replicate link_rst.length '-')
  let dep_notices_rst := joinSep "\n    " notices
  link_rst ++ "\n" ++ underline_rst ++ "\n\n::\n\n    " ++ dep_notices_rst ++ "\n\n"

/-- One iteration of the main loop over the resolved dependencies: skip the
project's own crates, skip a dependency whose simplified license set is
entirely notice-free, otherwise extract notices and either fail, skip a
whitelisted notice-free dependency, or append its section. The oracle `fs`
maps a manifest path to the listing of the crate directory containing it. -/
def processDep (fs : String → List FsEntry) (acc : String) (d : Dependency) :
    Except MainError String :=
  if SKIPPABLE_CRATES.contains d.name then .ok acc
  else
    match parse_licenses d with
    | .error e => .error (.parse e)
    | .ok licenses =>
      if licenses.all (fun l => SKIPPABLE_NOTICE_LICENSES.contains l) then .ok acc
      else
        let notices := read_notices d (fs d.manifest_path)
        if notices.isEmpty then
          if NO_NOTICES_WHITELIST.contains (d.name, d.version) then .ok acc
          else .error (.noNotices d.name d.version)
        else .ok (acc ++ sectionRst d notices)

/-- The document produced by the main loop: header plus one section per
obligated dependency. The string is only produced after every dependency is
processed without a fatal error; a fatal error yields `Except.error` and no
document. -/
def buildDocument (now : String) (fs : String → List FsEntry) (deps : List Dependency) :
    Except MainError String :=
  let heading := "Dependency Copyright Notices"
  let init := ".. This file was generated by scripts/licenses.py at " ++ now ++ ".\n\n" ++
    heading ++ "\n" ++ String.mk (List.replicate heading.length '=') ++ "\n\n"
  deps.foldlM (fun acc d => processDep fs acc d) init

/-! ## Derived notions used by the statements -/

/-- One non-excluded dependency step between package names: some package
named `a` has a kept edge to `b`. -/
def Step (packages : List Package) (a b : String) : Prop :=
  ∃ p, p ∈ packages ∧ p.name = a ∧
    ∃ e, e ∈ p.dependencies ∧ isExcludedEdge e = false ∧ e.name = b

/-- The fold of `resolveNames` generalized over the remaining package list
and the accumulated visited set. -/
def resolveFold (packages : List Package) (r : String) (l : List Package)
    (vis : List String) : List String :=
  l.foldl (fun v p => if p.name == r then recurse_dependencies packages p v else v) vis

/-- The notice lines contributed by one file entry directly inside a
matched sub-directory. -/
def dirFileNotices (e : FsEntry) : List String :=
  match e with
  | .file _ lines => read_notices_from_file lines
  | .dir _ _ => []

/-- The notice lines contributed by one top-level entry of the crate
directory. -/
def entryNotices (e : FsEntry) : List String :=
  match e with
  | .file nm lines => if matchesLicenseName nm then read_notices_from_file lines else []
  | .dir nm sub => if matchesLicenseName nm then scanDirFiles sub else []

/-- The dependency record that `get_package_dependencies` builds from a
package. -/
def recordOfPackage (p : Package) : Dependency :=
  { name := p.name
    version := p.version
    license := licenseFieldOfMeta p.license
    manifest_path := p.manifest_path }

/-! ## Spec-side definitions

These restate the policies in the words of the specification, to be
compared with the translations above. -/

/-- Spec-side: the set of identifiers requiring no redistribution notice,
as listed by the claim. -/
def noNoticeRequired : List String := ["CC0-1.0", "Unlicense", "Zlib", "MPL-2.0"]

/-- Spec-side: the disjunctive branches of a raw license field, after the
fixed normalization table. -/
def orBranches (raw : String) : List String :=
  (splitOR (normalizeLicense raw)).map trimString

/-- Spec-side: the conjunctive identifier list of one branch. -/
def andIdentifiers (branch : String) : List String :=
  (splitAND branch).map trimString

/-- Spec-side selection policy of the simplifier: the first branch whose
identifiers all require no notice; else `["MIT"]` when `MIT` is a branch;
else the identifier list of the first branch. -/
def simplifySpec (raw : String) : List String :=
  match (orBranches raw).find?
      (fun b => (andIdentifiers b).all (fun i => noNoticeRequired.contains i)) with
  | some b => andIdentifiers b
  | none =>
    if (orBranches raw).contains "MIT" then ["MIT"]
    else andIdentifiers ((orBranches raw).headD "")

/-- Spec-side: the line matches a four-digit-year pattern, that is, it
contains four consecutive decimal digits. -/
def HasYearSpec (line : String) : Prop :=
  ∃ a b c d : Char, a.isDigit = true ∧ b.isDigit = true ∧ c.isDigit = true ∧
    d.isDigit = true ∧ [a, b, c, d] <:+: line.data

/-- Spec-side classification of a notice line: the lower-cased line
contains `copyright`, and it contains `(c)` lower-cased, or the original
line contains the copyright sign, or the line matches a four-digit-year
pattern. -/
def NoticeLineSpec (line : String) : Prop :=
  "copyright".data <:+: (lowerString line).data ∧
    ("(c)".data <:+: (lowerString line).data ∨ "©".data <:+: line.data ∨ HasYearSpec line)

/-! ## Concrete fixtures -/

/-- Root package of the spec's worked example: `A` depends on `B`
(normal) and `C` (dev-only). -/
def pkgA : Package :=
  { name := "A", version := "1.0.0", license := some "MIT", manifest_path := "A/Cargo.toml",
    dependencies :=
      [{ name := "B", kind := "normal", target := none },
       { name := "C", kind := "dev", target := none }] }

/-- Package `B` of the example, depending on `D` (normal). -/
def pkgB : Package :=
  { name := "B", version := "1.0.0", license := some "MIT", manifest_path := "B/Cargo.toml",
    dependencies := [{ name := "D", kind := "normal", target := none }] }

/-- Package `C` of the example, a leaf. -/
def pkgC : Package :=
  { name := "C", version := "1.0.0", license := some "MIT", manifest_path := "C/Cargo.toml",
    dependencies := [] }

/-- Package `D` of the example, a leaf. -/
def pkgD : Package :=
  { name := "D", version := "1.0.0", license := some "MIT", manifest_path := "D/Cargo.toml",
    dependencies := [] }

/-- The dependency graph of the spec's worked example. -/
def examplePackages : List Package := [pkgA, pkgB, pkgC, pkgD]

/-- A graph whose root has one edge to a name with no package (`ghost`)
and one edge to a real package. -/
def pkgRoot : Package :=
  { name := "root", version := "1.0.0", license := some "MIT",
    manifest_path := "root/Cargo.toml",
    dependencies :=
      [{ name := "ghost", kind := "normal", target := none },
       { name := "leaf", kind := "normal", target := none }] }

/-- The one real dependency of `pkgRoot`. -/
def pkgLeaf : Package :=
  { name := "leaf", version := "0.2.0", license := some "Apache-2.0",
    manifest_path := "leaf/Cargo.toml",
    dependencies := [] }

/-- A graph with a dangling edge target. -/
def ghostPackages : List Package := [pkgRoot, pkgLeaf]

/-- A plain MIT dependency used by concrete instances. -/
def exDepJane : Dependency :=
  { name := "jane", version := "1.0.0", license := .str "MIT",
    manifest_path := "jane/Cargo.toml" }

/-- A dependency record without a license key. -/
def exDepNoLicense : Dependency :=
  { name := "nolicense", version := "0.1.0", license := .absent,
    manifest_path := "nolicense/Cargo.toml" }

/-- A dependency record whose license key holds an empty string. -/
def exDepEmptyLicense : Dependency :=
  { name := "emptylicense", version := "0.1.0", license := .str "",
    manifest_path := "emptylicense/Cargo.toml" }

/-- A CC0 dependency, entirely notice-free. -/
def exDepCC0 : Dependency :=
  { name := "cczero", version := "2.0.0", license := .str "CC0-1.0",
    manifest_path := "cczero/Cargo.toml" }

/-- A dependency carrying the `or-later` GPL variant together with another
GPL variant. -/
def exDepGPL : Dependency :=
  { name := "gpltool", version := "3.0.0", license := .str "GPL-3.0 OR GPL-3.0-or-later",
    manifest_path := "gpltool/Cargo.toml" }

/-- The empty file-system oracle: every crate directory is empty. -/
def emptyFs : String → List FsEntry := fun _ => []

/-! ## Lemmas: strings -/

lemma contains_true_iff (l : List String) (a : String) : l.contains a = true ↔ a ∈ l :=
  List.elem_iff

lemma containsSub_iff (needle : List Char) :
    ∀ l : List Char, containsSub needle l = true ↔ needle <:+: l := by
  intro l
  induction l with
  | nil =>
    rw [containsSub]
    rw [List.isPrefixOf_iff_prefix]
    constructor
    · intro h
      exact h.isInfix
    · intro h
      rw [List.infix_nil] at h
      subst h
      exact List.prefix_refl _
  | cons c cs ih =>
    rw [containsSub]
    simp only [Bool.or_eq_true, List.isPrefixOf_iff_prefix, ih]
    constructor
    · rintro (h | h)
      · exact h.isInfix
      · exact h.trans (List.suffix_cons c cs).isInfix
    · intro h
      rcases List.infix_cons_iff.mp h with h | h
      · exact Or.inl h
      · exact Or.inr h

lemma hasYearChars_iff :
    ∀ l : List Char, hasYearChars l = true ↔
      ∃ a b c d : Char, a.isDigit = true ∧ b.isDigit = true ∧ c.isDigit = true ∧
        d.isDigit = true ∧ [a, b, c, d] <:+: l := by
  intro l
  induction l using hasYearChars.induct with
  | case1 a b c d rest ih =>
    rw [hasYearChars]
    simp only [Bool.or_eq_true, Bool.and_eq_true, ih]
    constructor
    · rintro (⟨⟨⟨ha, hb⟩, hc⟩, hd⟩ | ⟨w, x, y, z, hw, hx, hy, hz, hinf⟩)
      · exact ⟨a, b, c, d, ha, hb, hc, hd, List.IsPrefix.isInfix ⟨rest, rfl⟩⟩
      · exact ⟨w, x, y, z, hw, hx, hy, hz,
          hinf.trans (List.suffix_cons a (b :: c :: d :: rest)).isInfix⟩
    · rintro ⟨w, x, y, z, hw, hx, hy, hz, hinf⟩
      rcases List.infix_cons_iff.mp hinf with hpre | hinf'
      · obtain ⟨h1, hpre⟩ := List.cons_prefix_cons.mp hpre
        obtain ⟨h2, hpre⟩ := List.cons_prefix_cons.mp hpre
        obtain ⟨h3, hpre⟩ := List.cons_prefix_cons.mp hpre
        obtain ⟨h4, _⟩ := List.cons_prefix_cons.mp hpre
        subst h1
        subst h2
        subst h3
        subst h4
        exact Or.inl ⟨⟨⟨hw, hx⟩, hy⟩, hz⟩
      · exact Or.inr ⟨w, x, y, z, hw, hx, hy, hz, hinf'⟩
  | case2 t ht =>
    have hfalse : hasYearChars t = false := by
      cases t with
      | nil => rfl
      | cons a t' =>
        cases t' with
        | nil => rfl
        | cons b t'' =>
          cases t'' with
          | nil => rfl
          | cons c t''' =>
            cases t''' with
            | nil => rfl
            | cons d rest => exact absurd rfl (ht a b c d rest)
    rw [hfalse]
    simp only [Bool.false_eq_true, false_iff]
    rintro ⟨w, x, y, z, _, _, _, _, hinf⟩
    have hlen := hinf.length_le
    have hshort : t.length ≤ 3 := by
      cases t with
      | nil => simp
      | cons a t' =>
        cases t' with
        | nil => simp
        | cons b t'' =>
          cases t'' with
          | nil => simp
          | cons c t''' =>
            cases t''' with
            | nil => simp
            | cons d rest => exact absurd rfl (ht a b c d rest)
    simp only [List.length_cons, List.length_nil] at hlen
    omega

lemma hasYearMatch_iff (line : String) : hasYearMatch line = true ↔ HasYearSpec line :=
  hasYearChars_iff line.data

lemma containsStr_iff (needle s : String) :
    containsStr needle s = true ↔ needle.data <:+: s.data :=
  containsSub_iff needle.data s.data

lemma noticeLine_iff (line : String) : noticeLine line = true ↔ NoticeLineSpec line := by
  unfold noticeLine NoticeLineSpec
  simp only [Bool.and_eq_true, Bool.or_eq_true, containsStr_iff, hasYearMatch_iff]
  tauto

/-! ## Lemmas: graph traversal -/

lemma dfsLoop_mono (packages : List Package) :
    ∀ stack visited, ∀ x ∈ visited, x ∈ dfsLoop packages stack visited := by
  intro stack visited
  induction stack, visited using dfsLoop.induct packages with
  | case1 visited => intro x hx; rw [dfsLoop]; exact hx
  | case2 visited rest ih => intro x hx; rw [dfsLoop]; exact ih x hx
  | case3 visited e es rest hcond ih =>
    intro x hx
    rw [dfsLoop]
    rw [if_pos hcond]
    exact ih x hx
  | case4 visited e es rest hcond ih =>
    intro x hx
    rw [dfsLoop]
    rw [if_neg hcond]
    exact ih x (List.mem_cons_of_mem _ hx)

lemma dfsLoop_complete (packages : List Package) :
    ∀ stack visited,
      (∀ fr ∈ stack, ∀ e ∈ fr, isExcludedEdge e = false →
        e.name ∈ dfsLoop packages stack visited) ∧
      (∀ n ∈ dfsLoop packages stack visited, n ∉ visited →
        ∀ p ∈ packages, p.name = n → ∀ e ∈ p.dependencies, isExcludedEdge e = false →
          e.name ∈ dfsLoop packages stack visited) := by
  intro stack visited
  induction stack, visited using dfsLoop.induct packages with
  | case1 visited =>
    rw [dfsLoop]
    constructor
    · intro fr hfr; cases hfr
    · intro n hn hnv; exact absurd hn hnv
  | case2 visited rest ih =>
    rw [dfsLoop]
    constructor
    · intro fr hfr e he hgood
      rcases List.mem_cons.mp hfr with rfl | hfr
      · cases he
      · exact ih.1 fr hfr e he hgood
    · exact ih.2
  | case3 visited e es rest hcond ih =>
    rw [dfsLoop]
    rw [if_pos hcond]
    constructor
    · intro fr hfr e' he' hgood
      rcases List.mem_cons.mp hfr with rfl | hfr
      · rcases List.mem_cons.mp he' with rfl | he'
        · -- the edge was skipped; since it is good, its name must be visited
          have hvis : e'.name ∈ visited := by
            simp only [Bool.or_eq_true] at hcond
            rcases hcond with h | h
            · exact (contains_true_iff _ _).mp h
            · rw [hgood] at h; cases h
          exact dfsLoop_mono packages _ _ _ hvis
        · exact ih.1 es (List.mem_cons_self _ _) e' he' hgood
      · exact ih.1 fr (List.mem_cons_of_mem _ hfr) e' he' hgood
    · exact ih.2
  | case4 visited e es rest hcond ih =>
    rw [dfsLoop]
    rw [if_neg hcond]
    constructor
    · intro fr hfr e' he' hgood
      rcases List.mem_cons.mp hfr with rfl | hfr
      · rcases List.mem_cons.mp he' with rfl | he'
        · exact dfsLoop_mono packages _ _ _ (List.mem_cons_self _ _)
        · exact ih.1 es (List.mem_append_right _ (List.mem_cons_self _ _)) e' he' hgood
      · exact ih.1 fr (List.mem_append_right _ (List.mem_cons_of_mem _ hfr)) e' he' hgood
    · intro n hn hnv p hp hpname e' he' hgood
      by_cases hne : n = e.name
      · subst hne
        have hframe : p.dependencies ∈
            (packages.filter (fun q => q.name == e.name)).map Package.dependencies :=
          List.mem_map.mpr ⟨p, List.mem_filter.mpr ⟨hp, by simp [hpname]⟩, rfl⟩
        exact ih.1 p.dependencies (List.mem_append_left _ hframe) e' he' hgood
      · have hnv' : n ∉ e.name :: visited := by
          intro h
          rcases List.mem_cons.mp h with h | h
          · exact hne h
          · exact hnv h
        exact ih.2 n hn hnv' p hp hpname e' he' hgood

lemma dfsLoop_sound (packages : List Package) :
    ∀ stack visited, ∀ n ∈ dfsLoop packages stack visited, n ∉ visited →
      ∃ s, (∃ fr ∈ stack, ∃ e ∈ fr, isExcludedEdge e = false ∧ e.name = s) ∧
        Relation.ReflTransGen (Step packages) s n := by
  intro stack visited
  induction stack, visited using dfsLoop.induct packages with
  | case1 visited =>
    rw [dfsLoop]
    intro n hn hnv
    exact absurd hn hnv
  | case2 visited rest ih =>
    rw [dfsLoop]
    intro n hn hnv
    obtain ⟨s, ⟨fr, hfr, hseed⟩, hrt⟩ := ih n hn hnv
    exact ⟨s, ⟨fr, List.mem_cons_of_mem _ hfr, hseed⟩, hrt⟩
  | case3 visited e es rest hcond ih =>
    rw [dfsLoop]
    rw [if_pos hcond]
    intro n hn hnv
    obtain ⟨s, ⟨fr, hfr, hseed⟩, hrt⟩ := ih n hn hnv
    rcases List.mem_cons.mp hfr with rfl | hfr
    · obtain ⟨e', he', h1, h2⟩ := hseed
      exact ⟨s, ⟨e :: fr, List.mem_cons_self _ _, e', List.mem_cons_of_mem _ he', h1, h2⟩, hrt⟩
    · exact ⟨s, ⟨fr, List.mem_cons_of_mem _ hfr, hseed⟩, hrt⟩
  | case4 visited e es rest hcond ih =>
    rw [dfsLoop]
    rw [if_neg hcond]
    have hgoodE : isExcludedEdge e = false := by
      simp only [Bool.or_eq_true, not_or, Bool.not_eq_true] at hcond
      exact hcond.2
    intro n hn hnv
    by_cases hne : n = e.name
    · subst hne
      exact ⟨e.name, ⟨e :: es, List.mem_cons_self _ _, e, List.mem_cons_self _ _, hgoodE, rfl⟩,
        Relation.ReflTransGen.refl⟩
    · have hnv' : n ∉ e.name :: visited := by
        intro h
        rcases List.mem_cons.mp h with h | h
        · exact hne h
        · exact hnv h
      obtain ⟨s, ⟨fr, hfr, hseed⟩, hrt⟩ := ih n hn hnv'
      rcases List.mem_append.mp hfr with hfr | hfr
      · -- a frame of a package matched for `e.name`: chain through one step
        obtain ⟨p, hpfilter, rfl⟩ := List.mem_map.mp hfr
        obtain ⟨hp, hpname⟩ := List.mem_filter.mp hpfilter
        obtain ⟨e', he', hgood', rfl⟩ := hseed
        have hstep : Step packages e.name e'.name :=
          ⟨p, hp, by simpa using hpname, e', he', hgood', rfl⟩
        exact ⟨e.name, ⟨e :: es, List.mem_cons_self _ _, e, List.mem_cons_self _ _, hgoodE, rfl⟩,
          Relation.ReflTransGen.head hstep hrt⟩
      · rcases List.mem_cons.mp hfr with rfl | hfr
        · obtain ⟨e', he', h1, h2⟩ := hseed
          exact ⟨s, ⟨e :: fr, List.mem_cons_self _ _, e', List.mem_cons_of_mem _ he', h1, h2⟩, hrt⟩
        · exact ⟨s, ⟨fr, List.mem_cons_of_mem _ hfr, hseed⟩, hrt⟩

lemma resolveNames_eq_fold (packages : List Package) (r : String) :
    resolveNames packages r = resolveFold packages r packages [] := rfl

lemma resolveFold_cons (packages : List Package) (r : String) (q : Package)
    (rest : List Package) (vis : List String) :
    resolveFold packages r (q :: rest) vis =
      resolveFold packages r rest
        (if q.name == r then recurse_dependencies packages q vis else vis) := rfl

lemma resolveFold_mono (packages : List Package) (r : String) :
    ∀ (l : List Package) (vis : List String), ∀ x ∈ vis, x ∈ resolveFold packages r l vis := by
  intro l
  induction l with
  | nil => intro vis x hx; exact hx
  | cons q rest ih =>
    intro vis x hx
    rw [resolveFold_cons]
    by_cases hq : q.name == r
    · rw [if_pos hq]
      exact ih _ x (dfsLoop_mono packages _ _ x hx)
    · rw [if_neg hq]
      exact ih _ x hx

lemma resolveFold_direct (packages : List Package) (r : String) :
    ∀ (l : List Package) (vis : List String), ∀ p ∈ l, p.name = r →
      ∀ e ∈ p.dependencies, isExcludedEdge e = false →
        e.name ∈ resolveFold packages r l vis := by
  intro l
  induction l with
  | nil => intro vis p hp; cases hp
  | cons q rest ih =>
    intro vis p hp hpname e he hgood
    rw [resolveFold_cons]
    rcases List.mem_cons.mp hp with rfl | hp
    · rw [if_pos (by simp [hpname])]
      apply resolveFold_mono
      exact (dfsLoop_complete packages [p.dependencies] vis).1 p.dependencies
        (List.mem_cons_self _ _) e he hgood
    · by_cases hq : q.name == r
      · rw [if_pos hq]
        exact ih _ p hp hpname e he hgood
      · rw [if_neg hq]
        exact ih _ p hp hpname e he hgood

lemma resolveFold_closed (packages : List Package) (r : String) :
    ∀ (l : List Package) (vis : List String), ∀ n ∈ resolveFold packages r l vis, n ∉ vis →
      ∀ p ∈ packages, p.name = n → ∀ e ∈ p.dependencies, isExcludedEdge e = false →
        e.name ∈ resolveFold packages r l vis := by
  intro l
  induction l with
  | nil => intro vis n hn hnv; exact absurd hn hnv
  | cons q rest ih =>
    intro vis n hn hnv p hp hpname e he hgood
    rw [resolveFold_cons] at hn ⊢
    by_cases hq : q.name == r
    · rw [if_pos hq] at hn ⊢
      by_cases hmem : n ∈ recurse_dependencies packages q vis
      · apply resolveFold_mono
        exact (dfsLoop_complete packages [q.dependencies] vis).2 n hmem hnv p hp hpname e he hgood
      · exact ih _ n hn hmem p hp hpname e he hgood
    · rw [if_neg hq] at hn ⊢
      exact ih _ n hn hnv p hp hpname e he hgood

lemma resolveFold_sound (packages : List Package) (r : String) :
    ∀ (l : List Package) (vis : List String), (∀ p ∈ l, p ∈ packages) →
      ∀ n ∈ resolveFold packages r l vis, n ∉ vis →
        Relation.TransGen (Step packages) r n := by
  intro l
  induction l with
  | nil => intro vis _ n hn hnv; exact absurd hn hnv
  | cons q rest ih =>
    intro vis hsub n hn hnv
    rw [resolveFold_cons] at hn
    by_cases hq : q.name == r
    · rw [if_pos hq] at hn
      by_cases hmem : n ∈ recurse_dependencies packages q vis
      · obtain ⟨s, ⟨fr, hfr, e, he, hgood, rfl⟩, hrt⟩ :=
          dfsLoop_sound packages [q.dependencies] vis n hmem hnv
        have hfr' : fr = q.dependencies := by
          rcases List.mem_cons.mp hfr with h | h
          · exact h
          · cases h
        subst hfr'
        have hstep : Step packages r e.name :=
          ⟨q, hsub q (List.mem_cons_self _ _), by simpa using hq, e, he, hgood, rfl⟩
        exact Relation.TransGen.head' hstep hrt
      · exact ih _ (fun p hp => hsub p (List.mem_cons_of_mem _ hp)) n hn hmem
    · rw [if_neg hq] at hn
      exact ih _ (fun p hp => hsub p (List.mem_cons_of_mem _ hp)) n hn hnv

/-- Characterization of the traversal: a name is collected exactly when it
is reachable from the root name through at least one non-excluded edge. -/
lemma resolveNames_iff (packages : List Package) (r : String) (n : String) :
    n ∈ resolveNames packages r ↔ Relation.TransGen (Step packages) r n := by
  rw [resolveNames_eq_fold]
  constructor
  · intro hn
    exact resolveFold_sound packages r packages [] (fun p hp => hp) n hn (List.not_mem_nil n)
  · intro h
    induction h with
    | single h =>
      obtain ⟨p, hp, hpname, e, he, hgood, rfl⟩ := h
      exact resolveFold_direct packages r packages [] p hp hpname e he hgood
    | tail h₁ h₂ ih =>
      obtain ⟨p, hp, hpname, e, he, hgood, rfl⟩ := h₂
      exact resolveFold_closed packages r packages [] _ ih (List.not_mem_nil _) p hp hpname e he hgood

/-- Characterization of the resolver's output: a record is returned exactly
when it is the record of a package whose name is reachable from the root. -/
lemma get_package_dependencies_mem_iff (packages : List Package) (r : String) (d : Dependency) :
    d ∈ get_package_dependencies packages r ↔
      ∃ p ∈ packages, Relation.TransGen (Step packages) r p.name ∧ d = recordOfPackage p := by
  unfold get_package_dependencies recordOfPackage
  simp only [List.mem_map, List.mem_filter]
  constructor
  · rintro ⟨p, ⟨hp, hname⟩, rfl⟩
    exact ⟨p, hp, (resolveNames_iff packages r p.name).mp ((contains_true_iff _ _).mp hname), rfl⟩
  · rintro ⟨p, hp, hreach, rfl⟩
    exact ⟨p, ⟨hp, (contains_true_iff _ _).mpr ((resolveNames_iff packages r p.name).mpr hreach)⟩,
      rfl⟩

/-! ## Lemmas: notice extraction -/

lemma read_notices_from_file_mem (lines : List String) (x : String) :
    x ∈ read_notices_from_file lines ↔
      ∃ line ∈ lines, noticeLine line = true ∧ x = trimString line := by
  unfold read_notices_from_file
  simp only [List.mem_map, List.mem_filter]
  constructor
  · rintro ⟨line, ⟨hline, hnotice⟩, rfl⟩
    exact ⟨line, hline, hnotice, rfl⟩
  · rintro ⟨line, hline, hnotice, rfl⟩
    exact ⟨line, ⟨hline, hnotice⟩, rfl⟩

lemma scanDirFiles_eq (entries : List FsEntry) :
    scanDirFiles entries = (entries.map dirFileNotices).flatten := by
  have h : ∀ (l : List FsEntry) (acc : List String),
      l.foldl
        (fun a e =>
          match e with
          | .file _ lines => a ++ read_notices_from_file lines
          | .dir _ _ => a) acc = acc ++ (l.map dirFileNotices).flatten := by
    intro l
    induction l with
    | nil => intro acc; simp
    | cons e rest ih =>
      intro acc
      cases e with
      | file nm lines => simp [List.foldl_cons, ih, dirFileNotices]
      | dir nm sub => simp [List.foldl_cons, ih, dirFileNotices]
  simpa [scanDirFiles] using h entries []

lemma collectNotices_eq (entries : List FsEntry) :
    collectNotices entries = (entries.map entryNotices).flatten := by
  have h : ∀ (l : List FsEntry) (acc : List String),
      l.foldl
        (fun a e =>
          match e with
          | .file nm lines =>
            if matchesLicenseName nm then a ++ read_notices_from_file lines else a
          | .dir nm sub =>
            if matchesLicenseName nm then a ++ scanDirFiles sub else a) acc =
        acc ++ (l.map entryNotices).flatten := by
    intro l
    induction l with
    | nil => intro acc; simp
    | cons e rest ih =>
      intro acc
      cases e with
      | file nm lines =>
        by_cases hm : matchesLicenseName nm <;> simp [List.foldl_cons, ih, entryNotices, hm]
      | dir nm sub =>
        by_cases hm : matchesLicenseName nm <;> simp [List.foldl_cons, ih, entryNotices, hm]
  simpa [collectNotices] using h entries []

lemma collectNotices_mem (entries : List FsEntry) (x : String) :
    x ∈ collectNotices entries ↔ ∃ e ∈ entries, x ∈ entryNotices e := by
  rw [collectNotices_eq]
  simp only [List.mem_flatten, List.mem_map]
  constructor
  · rintro ⟨l, ⟨e, he, rfl⟩, hx⟩
    exact ⟨e, he, hx⟩
  · rintro ⟨e, he, hx⟩
    exact ⟨entryNotices e, ⟨e, he, rfl⟩, hx⟩

/-- The three hardcoded override names of `read_notices`. -/
def noticeOverrides : List String := ["hashlink", "libloadorder", "esplugin"]

lemma read_notices_eq_of_not_override (d : Dependency) (entries : List FsEntry)
    (h : d.name ∉ noticeOverrides) :
    read_notices d entries =
      List.insertionSort (fun a b => a ≤ b) (collectNotices entries).dedup := by
  unfold read_notices
  rw [if_neg, if_neg, if_neg]
  · intro heq; exact h (by rw [heq]; simp [noticeOverrides])
  · intro heq; exact h (by rw [heq]; simp [noticeOverrides])
  · intro heq; exact h (by rw [heq]; simp [noticeOverrides])

lemma read_notices_sorted (d : Dependency) (entries : List FsEntry) :
    (read_notices d entries).Sorted (fun a b => a ≤ b) := by
  unfold read_notices
  split
  · simp
  · split
    · simp
    · split
      · simp
      · exact List.sorted_insertionSort _ _

lemma read_notices_nodup (d : Dependency) (entries : List FsEntry) :
    (read_notices d entries).Nodup := by
  unfold read_notices
  split
  · simp
  · split
    · simp
    · split
      · simp
      · exact ((List.perm_insertionSort _ _).nodup_iff).mpr (List.nodup_dedup _)

lemma read_notices_mem (d : Dependency) (entries : List FsEntry) (x : String)
    (h : d.name ∉ noticeOverrides) :
    x ∈ read_notices d entries ↔ x ∈ collectNotices entries := by
  rw [read_notices_eq_of_not_override d entries h]
  rw [List.mem_insertionSort]
  exact List.mem_dedup

/-! ## Lemmas: orchestrator folds -/

lemma except_bind_error {ε σ σ2 : Type} (e : ε) (g : σ → Except ε σ2) :
    ((Except.error e : Except ε σ) >>= g) = Except.error e := rfl

lemma except_bind_ok {ε σ σ2 : Type} (a : σ) (g : σ → Except ε σ2) :
    ((Except.ok a : Except ε σ) >>= g) = g a := rfl

lemma foldlM_never_ok {σ ε α : Type} (f : σ → α → Except ε σ) (x : α) :
    ∀ (l : List α) (b : σ), x ∈ l → (∀ acc, ∃ err, f acc x = .error err) →
      ∀ r, l.foldlM f b ≠ .ok r := by
  intro l
  induction l with
  | nil => intro b hx; cases hx
  | cons a rest ih =>
    intro b hx herr r
    rw [List.foldlM_cons]
    rcases List.mem_cons.mp hx with rfl | hx
    · obtain ⟨err, herr'⟩ := herr b
      rw [herr', except_bind_error]
      intro hcontra
      cases hcontra
    · cases hfa : f b a with
      | error e =>
        rw [except_bind_error]
        intro hcontra
        cases hcontra
      | ok b' =>
        rw [except_bind_ok]
        exact ih b' hx herr r

lemma foldlM_skip_middle {σ ε α : Type} (f : σ → α → Except ε σ) (d : α)
    (hok : ∀ acc, f acc d = .ok acc) :
    ∀ (pre post : List α) (b : σ),
      (pre ++ d :: post).foldlM f b = (pre ++ post).foldlM f b := by
  intro pre
  induction pre with
  | nil =>
    intro post b
    simp only [List.nil_append, List.foldlM_cons, hok b, except_bind_ok]
  | cons a rest ih =>
    intro post b
    simp only [List.cons_append, List.foldlM_cons]
    cases hfa : f b a with
    | error e => rw [except_bind_error, except_bind_error]
    | ok b' => rw [except_bind_ok, except_bind_ok, ih]

/-! ## Lemmas: concrete evaluations shared by several statements -/

lemma resolveNames_example_eq : resolveNames examplePackages "A" = ["D", "B"] := by
  simp [resolveNames, recurse_dependencies, dfsLoop, examplePackages, pkgA, pkgB, pkgC, pkgD,
    isExcludedEdge, REDOX_TARGET]

lemma resolveNames_ghost_eq : resolveNames ghostPackages "root" = ["leaf", "ghost"] := by
  simp [resolveNames, recurse_dependencies, dfsLoop, ghostPackages, pkgRoot, pkgLeaf,
    isExcludedEdge, REDOX_TARGET]

lemma gpd_example_eq :
    get_package_dependencies examplePackages "A" =
      [recordOfPackage pkgB, recordOfPackage pkgD] := by
  rw [show get_package_dependencies examplePackages "A" =
      (examplePackages.filter
        (fun p => (resolveNames examplePackages "A").contains p.name)).map recordOfPackage
    from rfl]
  rw [resolveNames_example_eq]
  decide

lemma gpd_ghost_eq :
    get_package_dependencies ghostPackages "root" = [recordOfPackage pkgLeaf] := by
  rw [show get_package_dependencies ghostPackages "root" =
      (ghostPackages.filter
        (fun p => (resolveNames ghostPackages "root").contains p.name)).map recordOfPackage
    from rfl]
  rw [resolveNames_ghost_eq]
  decide

lemma simplifyLicenses_eq_spec (raw : String) : simplifyLicenses raw = simplifySpec raw := rfl

/-! ## Claims -/

/-- C1: for every raw license field string, `parse_licenses` selects its
result by the stated policy — after the fixed normalization table the
expression is split on `OR` into branches; the first branch whose `AND`
identifiers all lie in the no-notice-required set is returned; else `["MIT"]`
when the bare identifier `MIT` is an `OR` branch; else the `AND` identifier
list of the first branch — and in particular
`simplify("MIT/Apache-2.0") = ["MIT"]`,
`simplify("(Apache-2.0 OR MIT) AND BSD-3-Clause") = ["MIT", "BSD-3-Clause"]`
and `simplify("CC0-1.0 OR MIT") = ["CC0-1.0"]`. -/
theorem c1_license_simplification :
    (∀ (d : Dependency) (s : String), d.license = LicenseField.str s →
      parse_licenses d = .ok (simplifySpec s)) ∧
    simplifyLicenses "MIT/Apache-2.0" = ["MIT"] ∧
    simplifyLicenses "(Apache-2.0 OR MIT) AND BSD-3-Clause" = ["MIT", "BSD-3-Clause"] ∧
    simplifyLicenses "CC0-1.0 OR MIT" = ["CC0-1.0"] := by
  refine ⟨?_, by decide, by decide, by decide⟩
  intro d s h
  unfold parse_licenses
  rw [h]
  exact congrArg Except.ok (simplifyLicenses_eq_spec s)

/-- Witness for C1 at a concrete record with license field `MIT`. -/
theorem c1_witness :
    parse_licenses exDepJane = .ok (simplifySpec "MIT") ∧
      simplifyLicenses "CC0-1.0 OR MIT" = ["CC0-1.0"] :=
  ⟨c1_license_simplification.1 exDepJane "MIT" rfl, c1_license_simplification.2.2.2⟩

/-- C2 counterexample: in the spec's worked example the claim puts the root
`A` in the traversal output, but the traversal never adds the root's own
name: `A` is not in the visited set it produces. -/
theorem c2_counterexample : "A" ∉ resolveNames examplePackages "A" := by
  rw [resolveNames_example_eq]
  decide

/-- C2 (amended): every package name reachable from the root through
non-`dev`/`build` edges whose platform conditional is not the Redox
conditional is collected by the traversal, and only such names are
collected (so packages reachable only through `dev`/`build` edges are not);
in the spec's example the traversal output is exactly `{B, D}` — the root
`A` itself is absent from the traversal output, being excluded by the
traversal itself rather than by the orchestrator's self-exclusion rule. -/
theorem c2_amended_graph_filter :
    (∀ (packages : List Package) (r n : String),
      Relation.TransGen (Step packages) r n → n ∈ resolveNames packages r) ∧
    (∀ (packages : List Package) (r n : String),
      n ∈ resolveNames packages r → Relation.TransGen (Step packages) r n) ∧
    (∀ x, x ∈ resolveNames examplePackages "A" ↔ x = "B" ∨ x = "D") := by
  refine ⟨fun packages r n h => (resolveNames_iff packages r n).mpr h,
    fun packages r n h => (resolveNames_iff packages r n).mp h, ?_⟩
  intro x
  rw [resolveNames_example_eq]
  constructor
  · intro h
    rcases List.mem_cons.mp h with rfl | h
    · exact Or.inr rfl
    · rcases List.mem_cons.mp h with rfl | h
      · exact Or.inl rfl
      · cases h
  · rintro (rfl | rfl)
    · exact List.mem_cons_of_mem _ (List.mem_cons_self _ _)
    · exact List.mem_cons_self _ _

/-- Witness for C2 at the example graph: `B` is reachable from `A` through
the normal edge of `pkgA`, so the theorem puts it in the traversal output. -/
theorem c2_witness : "B" ∈ resolveNames examplePackages "A" :=
  c2_amended_graph_filter.1 examplePackages "A" "B"
    (Relation.TransGen.single
      ⟨pkgA, by simp [examplePackages], rfl,
        { name := "B", kind := "normal", target := none }, by simp [pkgA], by decide, rfl⟩)

/-- C3: for a dependency outside the hardcoded override table, the
extractor collects exactly the lines classified by the stated predicate —
lower-cased line contains `copyright` and additionally contains `(c)`
lower-cased, or the copyright sign in the original line, or a four-digit
run — stripped; the result is deduplicated and sorted; and the concrete
examples behave as stated, duplicates across files collapsing to one
entry. -/
theorem c3_notice_extraction :
    (∀ line : String, noticeLine line = true ↔ NoticeLineSpec line) ∧
    (∀ (lines : List String) (x : String),
      x ∈ read_notices_from_file lines ↔
        ∃ line ∈ lines, noticeLine line = true ∧ x = trimString line) ∧
    (∀ (d : Dependency) (entries : List FsEntry), d.name ∉ noticeOverrides →
      (read_notices d entries).Sorted (fun a b => a ≤ b) ∧
      (read_notices d entries).Nodup ∧
      (∀ x, x ∈ read_notices d entries ↔ ∃ e ∈ entries, x ∈ entryNotices e)) ∧
    read_notices exDepJane
        [.file "LICENSE" ["Copyright (c) 2020 Jane Doe", "Some unrelated text"]] =
      ["Copyright (c) 2020 Jane Doe"] ∧
    read_notices exDepJane
        [.file "LICENSE" ["Copyright (c) 2020 Jane Doe"],
         .file "COPYING" ["Copyright (c) 2020 Jane Doe"]] =
      ["Copyright (c) 2020 Jane Doe"] := by
  refine ⟨noticeLine_iff, read_notices_from_file_mem, ?_, by decide, by decide⟩
  intro d entries h
  exact ⟨read_notices_sorted d entries, read_notices_nodup d entries,
    fun x => (read_notices_mem d entries x h).trans (collectNotices_mem entries x)⟩

/-- Witness for C3: the classifier accepts the example line, and the
extractor on a concrete record and directory returns the example notice. -/
theorem c3_witness :
    NoticeLineSpec "Copyright (c) 2020 Jane Doe" ∧
      ("Copyright (c) 2020 Jane Doe" ∈
        read_notices exDepJane
          [.file "LICENSE" ["Copyright (c) 2020 Jane Doe", "Some unrelated text"]] ↔
        ∃ e ∈ ([.file "LICENSE" ["Copyright (c) 2020 Jane Doe", "Some unrelated text"]] :
            List FsEntry),
          "Copyright (c) 2020 Jane Doe" ∈ entryNotices e) :=
  ⟨(c3_notice_extraction.1 "Copyright (c) 2020 Jane Doe").mp (by decide),
   (c3_notice_extraction.2.2.1 exDepJane
      [.file "LICENSE" ["Copyright (c) 2020 Jane Doe", "Some unrelated text"]]
      (by decide)).2.2 "Copyright (c) 2020 Jane Doe"⟩

/-- C4: a dependency record without a license key makes `parse_licenses`
fail on its missing-license path, and the whole run aborts without
producing a fetch set: `download_licenses` calls `parse_licenses` on every
resolved dependency, so it can never return successfully. -/
theorem c4_missing_license_fatal :
    ∀ d : Dependency, d.license = LicenseField.absent →
      parse_licenses d = .error ParseError.missingLicense ∧
      (∀ deps : List Dependency, d ∈ deps → ∀ u, licensesToFetch deps ≠ .ok u) := by
  intro d h
  have hp : parse_licenses d = .error ParseError.missingLicense := by
    unfold parse_licenses
    rw [h]
  refine ⟨hp, ?_⟩
  intro deps hmem u
  have hcol : ∀ r, collectUniqueLicenses deps ≠ .ok r := by
    apply foldlM_never_ok _ d deps _ hmem
    intro acc
    refine ⟨ParseError.missingLicense, ?_⟩
    show (do
      let licenses ← parse_licenses d
      pure (acc ∪ licenses.toFinset) : Except ParseError (Finset String)) =
        .error ParseError.missingLicense
    rw [hp]
    rfl
  unfold licensesToFetch
  cases hcu : collectUniqueLicenses deps with
  | error e =>
    rw [except_bind_error]
    intro hcontra
    cases hcontra
  | ok r => exact absurd hcu (fun hcu => hcol r hcu)

/-- Witness for C4 at a concrete record without a license key. -/
theorem c4_witness :
    parse_licenses exDepNoLicense = .error ParseError.missingLicense ∧
      licensesToFetch [exDepNoLicense] ≠ .ok ∅ :=
  ⟨(c4_missing_license_fatal exDepNoLicense rfl).1,
   (c4_missing_license_fatal exDepNoLicense rfl).2 [exDepNoLicense]
     (List.mem_cons_self _ _) ∅⟩

/-- C5: a non-skipped dependency whose notice extraction is empty is
logged and skipped when whitelisted, and otherwise aborts the run; in the
fatal case the notices document is never produced, because `buildDocument`
only returns a document after every dependency is processed without a
fatal error. -/
theorem c5_empty_notices_policy :
    ∀ (fs : String → List FsEntry) (d : Dependency),
      SKIPPABLE_CRATES.contains d.name = false →
      ∀ ls, parse_licenses d = .ok ls →
        ls.all (fun l => SKIPPABLE_NOTICE_LICENSES.contains l) = false →
        read_notices d (fs d.manifest_path) = [] →
        (∀ acc,
          (NO_NOTICES_WHITELIST.contains (d.name, d.version) = true →
            processDep fs acc d = .ok acc) ∧
          (NO_NOTICES_WHITELIST.contains (d.name, d.version) = false →
            processDep fs acc d = .error (.noNotices d.name d.version))) ∧
        (NO_NOTICES_WHITELIST.contains (d.name, d.version) = false →
          ∀ now deps r, d ∈ deps → buildDocument now fs deps ≠ .ok r) := by
  intro fs d hcrates ls hparse hall hnotices
  have hstep : ∀ acc,
      processDep fs acc d =
        if NO_NOTICES_WHITELIST.contains (d.name, d.version) then .ok acc
        else .error (.noNotices d.name d.version) := by
    intro acc
    unfold processDep
    rw [if_neg (by rw [hcrates]; intro h; cases h)]
    rw [hparse]
    simp only []
    rw [if_neg (by rw [hall]; intro h; cases h)]
    rw [hnotices]
    rw [if_pos (by rfl)]
  constructor
  · intro acc
    constructor
    · intro hwl
      rw [hstep acc, if_pos hwl]
    · intro hwl
      rw [hstep acc, if_neg (by rw [hwl]; intro h; cases h)]
  · intro hwl now deps r hmem
    unfold buildDocument
    apply foldlM_never_ok _ d deps _ hmem
    intro acc
    exact ⟨.noNotices d.name d.version,
      by rw [hstep acc, if_neg (by rw [hwl]; intro h; cases h)]⟩

/-- Witness for C5 at a concrete MIT dependency with an empty crate
directory, absent from the whitelist. -/
theorem c5_witness :
    processDep emptyFs "" exDepJane = .error (.noNotices "jane" "1.0.0") ∧
      buildDocument "" emptyFs [exDepJane] ≠ .ok "" := by
  have h := c5_empty_notices_policy emptyFs exDepJane (by decide) ["MIT"] (by rfl)
    (by decide) (by rfl)
  exact ⟨(h.1 "").2 (by decide),
    h.2 (by decide) "" [exDepJane] "" (List.mem_cons_self _ _)⟩

/-- C6: a dependency whose simplified license set lies entirely in the
no-notice-required set is skipped before notice extraction — its loop step
returns the accumulator unchanged for every file-system oracle, so
extraction is never consulted — and removing it from the dependency list
leaves the produced document unchanged, so no section for it appears. -/
theorem c6_skippable_license_skipped :
    ∀ (d : Dependency) (ls : List String),
      parse_licenses d = .ok ls →
      ls.all (fun l => SKIPPABLE_NOTICE_LICENSES.contains l) = true →
      (∀ fs acc, processDep fs acc d = .ok acc) ∧
      (∀ now fs pre post,
        buildDocument now fs (pre ++ d :: post) = buildDocument now fs (pre ++ post)) := by
  intro d ls hparse hall
  have hstep : ∀ fs acc, processDep fs acc d = .ok acc := by
    intro fs acc
    unfold processDep
    by_cases hc : SKIPPABLE_CRATES.contains d.name
    · rw [if_pos hc]
    · rw [if_neg hc]
      rw [hparse]
      simp only []
      rw [if_pos hall]
  refine ⟨hstep, ?_⟩
  intro now fs pre post
  unfold buildDocument
  exact foldlM_skip_middle _ d (fun acc => hstep fs acc) pre post _

/-- Witness for C6 at a concrete CC0 dependency. -/
theorem c6_witness :
    processDep emptyFs "" exDepCC0 = .ok "" ∧
      buildDocument "" emptyFs [exDepCC0, exDepJane] = buildDocument "" emptyFs [exDepJane] := by
  have h := c6_skippable_license_skipped exDepCC0 ["CC0-1.0"] (by rfl) (by decide)
  exact ⟨h.1 emptyFs "", h.2 "" emptyFs [] [exDepJane]⟩

/-- C7: the fetch set excludes every identifier of the fixed skip-list, and
when the `or-later` GPL variant is in the collected set the other two GPL
variants are removed by the consolidation before fetching, so no GPL
variant text is downloaded more than once. -/
theorem c7_fetch_set_exclusions :
    (∀ u : Finset String, "GPL-3.0-or-later" ∈ u →
      "GPL-3.0" ∉ consolidateGPL u ∧ "GPL-3.0-only" ∉ consolidateGPL u) ∧
    (∀ (deps : List Dependency) (fetched : Finset String),
      licensesToFetch deps = .ok fetched → ∀ l ∈ SKIPPABLE_LICENSE_FILES, l ∉ fetched) := by
  constructor
  · intro u hu
    unfold consolidateGPL
    rw [if_pos hu]
    constructor
    · by_cases h1 : "GPL-3.0" ∈ u
      · simp only [if_pos h1]
        by_cases h2 : "GPL-3.0-only" ∈ u.erase "GPL-3.0"
        · rw [if_pos h2]
          intro hmem
          exact absurd ((Finset.mem_erase.mp hmem).2) (Finset.not_mem_erase _ _)
        · rw [if_neg h2]
          exact Finset.not_mem_erase _ _
      · simp only [if_neg h1]
        by_cases h2 : "GPL-3.0-only" ∈ u
        · rw [if_pos h2]
          intro hmem
          exact h1 (Finset.mem_erase.mp hmem).2
        · rw [if_neg h2]
          exact h1
    · by_cases h1 : "GPL-3.0" ∈ u
      · simp only [if_pos h1]
        by_cases h2 : "GPL-3.0-only" ∈ u.erase "GPL-3.0"
        · rw [if_pos h2]
          exact Finset.not_mem_erase _ _
        · rw [if_neg h2]
          exact h2
      · simp only [if_neg h1]
        by_cases h2 : "GPL-3.0-only" ∈ u
        · rw [if_pos h2]
          exact Finset.not_mem_erase _ _
        · rw [if_neg h2]
          exact h2
  · intro deps fetched h l hl
    unfold licensesToFetch at h
    cases hcu : collectUniqueLicenses deps with
    | error e =>
      rw [hcu, except_bind_error] at h
      cases h
    | ok u =>
      rw [hcu, except_bind_ok] at h
      have hfetched :
          fetched = (consolidateGPL u).filter (fun x => x ∉ SKIPPABLE_LICENSE_FILES) := by
        cases h
        rfl
      intro hmem
      rw [hfetched] at hmem
      exact (Finset.mem_filter.mp hmem).2 hl

/-- Witness for C7: a concrete set holding two GPL variants, and a
concrete run fetching nothing from the skip-list. -/
theorem c7_witness :
    ("GPL-3.0" ∉ consolidateGPL ({"GPL-3.0-or-later", "GPL-3.0"} : Finset String)) ∧
      "GPL-3.0" ∉ (∅ : Finset String) :=
  ⟨(c7_fetch_set_exclusions.1 {"GPL-3.0-or-later", "GPL-3.0"} (by decide)).1,
   c7_fetch_set_exclusions.2 [exDepGPL] ∅ (by rfl) "GPL-3.0" (by decide)⟩

/-- C8: the traversal and the resolver are total and never fail on an edge
whose target matches no package: every record of the resolver's output
names some package of the graph, so an unresolved edge target never appears
in the output; on the concrete graph with a dangling `ghost` edge the rest
of the traversal is unaffected and only the real dependency is returned. -/
theorem c8_unresolved_name_skipped :
    (∀ (packages : List Package) (r : String) (d : Dependency),
      d ∈ get_package_dependencies packages r → ∃ p ∈ packages, p.name = d.name) ∧
    (∀ (packages : List Package) (r n : String),
      (∀ p ∈ packages, p.name ≠ n) →
      ∀ d ∈ get_package_dependencies packages r, d.name ≠ n) ∧
    get_package_dependencies ghostPackages "root" = [recordOfPackage pkgLeaf] := by
  have hnames : ∀ (packages : List Package) (r : String) (d : Dependency),
      d ∈ get_package_dependencies packages r → ∃ p ∈ packages, p.name = d.name := by
    intro packages r d hd
    obtain ⟨p, hp, _, rfl⟩ := (get_package_dependencies_mem_iff packages r d).mp hd
    exact ⟨p, hp, rfl⟩
  refine ⟨hnames, ?_, gpd_ghost_eq⟩
  intro packages r n hne d hd hdn
  obtain ⟨p, hp, hpn⟩ := hnames packages r d hd
  exact hne p hp (hpn.trans hdn)

/-- Witness for C8 at the graph with the dangling `ghost` edge. -/
theorem c8_witness : (recordOfPackage pkgLeaf).name ≠ "ghost" := by
  apply c8_unresolved_name_skipped.2.1 ghostPackages "root" "ghost" (by decide)
  rw [c8_unresolved_name_skipped.2.2]
  exact List.mem_cons_self _ _

/-- C9: `parse_licenses` takes its missing-license fatal path exactly when
the license key is absent from the record — not when the key holds an empty
or `null` value — and every record built by `get_package_dependencies`
carries the key, so the fatal branch is unreachable from its output. -/
theorem c9_missing_license_iff_key_absent :
    (∀ d : Dependency,
      parse_licenses d = .error ParseError.missingLicense ↔
        d.license = LicenseField.absent) ∧
    (∀ (packages : List Package) (r : String) (d : Dependency),
      d ∈ get_package_dependencies packages r →
      parse_licenses d ≠ .error ParseError.missingLicense) := by
  have hiff : ∀ d : Dependency,
      parse_licenses d = .error ParseError.missingLicense ↔
        d.license = LicenseField.absent := by
    intro d
    unfold parse_licenses
    cases hd : d.license with
    | absent => simp
    | null => simp
    | str s => simp
  refine ⟨hiff, ?_⟩
  intro packages r d hd h
  obtain ⟨p, _, _, rfl⟩ := (get_package_dependencies_mem_iff packages r d).mp hd
  have habs := (hiff _).mp h
  cases hpl : p.license with
  | none => rw [show (recordOfPackage p).license = licenseFieldOfMeta p.license from rfl,
      hpl] at habs; cases habs
  | some s => rw [show (recordOfPackage p).license = licenseFieldOfMeta p.license from rfl,
      hpl] at habs; cases habs

/-- Witness for C9: the fatal path is not taken on an empty-string license
value, nor on the record the resolver builds for a concrete package. -/
theorem c9_witness :
    parse_licenses exDepEmptyLicense ≠ .error ParseError.missingLicense ∧
      parse_licenses (recordOfPackage pkgLeaf) ≠ .error ParseError.missingLicense := by
  constructor
  · intro h
    have habs := (c9_missing_license_iff_key_absent.1 exDepEmptyLicense).mp h
    cases habs
  · apply c9_missing_license_iff_key_absent.2 ghostPackages "root"
    rw [gpd_ghost_eq]
    exact List.mem_cons_self _ _

/-- C10: every record of the resolver's output is the target of some kept
dependency edge of the graph, and the root's record is only in the output
when the root name is reachable from itself through at least one kept
edge. -/
theorem c10_output_only_edge_targets :
    (∀ (packages : List Package) (r : String) (d : Dependency),
      d ∈ get_package_dependencies packages r →
      ∃ p, p ∈ packages ∧ ∃ e, e ∈ p.dependencies ∧ isExcludedEdge e = false ∧
        e.name = d.name) ∧
    (∀ (packages : List Package) (r : String) (d : Dependency),
      d ∈ get_package_dependencies packages r → d.name = r →
      Relation.TransGen (Step packages) r r) := by
  have hlast : ∀ (packages : List Package) (a b : String),
      Relation.TransGen (Step packages) a b → ∃ y, Step packages y b := by
    intro packages a b h
    induction h with
    | single h => exact ⟨_, h⟩
    | tail h₁ h₂ ih => exact ⟨_, h₂⟩
  constructor
  · intro packages r d hd
    obtain ⟨p, hp, hreach, rfl⟩ := (get_package_dependencies_mem_iff packages r d).mp hd
    obtain ⟨y, q, hq, hqname, e, he, hgood, hename⟩ := hlast packages r p.name hreach
    exact ⟨q, hq, e, he, hgood, hename⟩
  · intro packages r d hd hdr
    obtain ⟨p, hp, hreach, rfl⟩ := (get_package_dependencies_mem_iff packages r d).mp hd
    have hpr : p.name = r := hdr
    rw [hpr] at hreach
    exact hreach

/-- Witness for C10 at the worked example: the record of `B` in the output
is the target of a kept edge. -/
theorem c10_witness :
    ∃ p, p ∈ examplePackages ∧ ∃ e, e ∈ p.dependencies ∧ isExcludedEdge e = false ∧
      e.name = (recordOfPackage pkgB).name := by
  apply c10_output_only_edge_targets.1 examplePackages "A"
  rw [gpd_example_eq]
  exact List.mem_cons_self _ _
